import Mathlib

/-!
Verification of the scores-directory core: the .gen document parser
(src/services/gen-parser.ts) and the catalog service (score-loader).
JS strings are modelled as lists of characters; the YAML decoding
collaborator is an explicit parameter, since it is an external library.
-/

/-- A JS string, modelled as its sequence of characters. -/
abbrev Str := List Char

/-- Characters of a Lean string literal, for concrete inputs. -/
def strOf (s : String) : Str := s.data

/-- Whitespace recognised by trimming (space, tab, newline, carriage return). -/
def isSpaceChar (c : Char) : Bool := c == ' ' || c == '\t' || c == '\n' || c == '\r'

/-- JS String.prototype.trim: drop whitespace from both ends. -/
def trimStr (s : Str) : Str :=
  ((s.dropWhile isSpaceChar).reverse.dropWhile isSpaceChar).reverse

/-- JS String.prototype.split with a one-character separator:
"".split(sep) is [""], every separator occurrence opens a new field. -/
def splitOnChar (sep : Char) : Str → List Str
  | [] => [[]]
  | c :: rest =>
    if c == sep then [] :: splitOnChar sep rest
    else
      match splitOnChar sep rest with
      | l :: ls => (c :: l) :: ls
      | [] => [[c]]

/-- content.split("\n") from parseGenFile. -/
def splitLines (s : Str) : List Str := splitOnChar '\n' s

/-- relativePath.split("/") from scanDirectory. -/
def pathParts (p : Str) : List Str := splitOnChar '/' p

/-- Array.prototype.join with a one-character separator. -/
def joinWith (sep : Char) : List Str → Str
  | [] => []
  | [l] => l
  | l :: ls => l ++ sep :: joinWith sep ls

/-- lines.join("\n") from parseGenFile. -/
def joinLines (ls : List Str) : Str := joinWith '\n' ls

/-- The marker test of the backward scan: lines[i].trim() === "---". -/
def isMarker (line : Str) : Bool := trimStr line == strOf "---"

/-- A scalar value as produced by the YAML decoding collaborator. -/
inductive YamlValue where
  | vstr (s : Str)
  | vint (n : Int)
  | vbool (b : Bool)
  | vnull
deriving DecidableEq

/-- JS String(value) applied to a decoded scalar. -/
def yamlValueToString : YamlValue → Str
  | .vstr s => s
  | .vint n => strOf (toString n)
  | .vbool true => strOf "true"
  | .vbool false => strOf "false"
  | .vnull => strOf "null"

/-- Outcome of YAML.parse on the raw block: an exception, a non-object
result (null or a scalar), or an object holding key/value pairs. -/
inductive YamlResult where
  | err
  | scalarOrNull
  | mapping (pairs : List (Str × YamlValue))
deriving DecidableEq

/-- The external structured-text decoder (YAML.parse), as a parameter. -/
abbrev YamlDecoder := Str → YamlResult

/-- The key.replace call of normalizeMetadataKeys with the global regex
matching a hyphen followed by a lowercase ASCII letter: one left-to-right
pass of non-overlapping replacement of each such pair with the letter
uppercased. -/
def camelizeChars : Str → Str
  | [] => []
  | '-' :: c :: rest =>
    if c.isLower then c.toUpper :: camelizeChars rest
    else '-' :: camelizeChars (c :: rest)
  | c :: rest => c :: camelizeChars rest

/-- JS object assignment result[k] = v: overwrite in place when the key
exists, append otherwise (insertion order preserved). -/
def insertKV (m : List (Str × Str)) (k v : Str) : List (Str × Str) :=
  if m.any (fun p => p.1 == k) then
    m.map (fun p => if p.1 == k then (k, v) else p)
  else m ++ [(k, v)]

/-- normalizeMetadataKeys from gen-parser.ts: camel-case every key and
stringify every value, building a fresh object. -/
def normalizeMetadataKeys (pairs : List (Str × YamlValue)) : List (Str × Str) :=
  pairs.foldl (fun acc p => insertKV acc (camelizeChars p.1) (yamlValueToString p.2)) []

/-- The metadata produced from the raw block text: a decoded object is
normalized; an exception or a non-object result degrades to {}. -/
def metadataOfDecode (decode : YamlDecoder) (raw : Str) : List (Str × Str) :=
  match decode raw with
  | .mapping ps => normalizeMetadataKeys ps
  | _ => []

/-- The backward marker scan of parseGenFile: the loop for
(i = lines.length - 1; i >= 0; i--), called with the number of indices
still to visit and the metadataEndIndex found so far; returns
(metadataStartIndex, metadataEndIndex), with the break once both are set. -/
def scanBack (lines : List Str) : Nat → Option Nat → Option Nat × Option Nat
  | 0, endIdx => (none, endIdx)
  | i + 1, endIdx =>
    if isMarker (lines.getD i []) then
      match endIdx with
      | none => scanBack lines i (some i)
      | some e => (some i, some e)
    else scanBack lines i endIdx

/-- Result of parseGenFile; body models the field named after the
musical text (everything before the metadata block). -/
structure ParsedGenFile where
  body : Str
  metadata : List (Str × Str)
deriving DecidableEq

/-- parseGenFile from gen-parser.ts, with the YAML decoder explicit. -/
def parseGenFile (decode : YamlDecoder) (content : Str) : ParsedGenFile :=
  let lines := splitLines content
  match scanBack lines lines.length none with
  | (some s, some e) =>
    if s ≥ e then { body := trimStr content, metadata := [] }
    else
      { body := trimStr (joinLines (lines.take s))
        metadata := metadataOfDecode decode (joinLines ((lines.drop (s + 1)).take (e - (s + 1)))) }
  | _ => { body := trimStr content, metadata := [] }

/-- A catalog record, as built by scanDirectory (score-loader). -/
structure Score where
  path : Str
  filename : Str
  category : Str
  fullCategory : Str
  content : Str
  body : Str
  title : Option Str
  composer : Option Str
  timeSignature : Option Str
  tempo : Option Str
  keySignature : Option Str
  metadata : List (Str × Str)
deriving DecidableEq

/-- Property lookup on the normalized metadata object. -/
def mdLookup (md : List (Str × Str)) (k : Str) : Option Str :=
  (md.find? (fun p => p.1 == k)).map (fun p => p.2)

/-- The record construction of scanDirectory for one discovered file:
category is pathParts[0], fullCategory is pathParts.slice(0, -1).join("/"),
and the convenience fields project out of the parsed metadata. -/
def mkScore (decode : YamlDecoder) (relativePath : Str) (content : Str) : Score :=
  let parsed := parseGenFile decode content
  let parts := pathParts relativePath
  { path := relativePath
    filename := parts.getLastD []
    category := parts.headD []
    fullCategory := joinWith '/' parts.dropLast
    content := content
    body := parsed.body
    title := mdLookup parsed.metadata (strOf "title")
    composer := mdLookup parsed.metadata (strOf "composer")
    timeSignature := mdLookup parsed.metadata (strOf "timeSignature")
    tempo := mdLookup parsed.metadata (strOf "tempo")
    keySignature := mdLookup parsed.metadata (strOf "keySignature")
    metadata := parsed.metadata }

/-- The optional filter accepted by filterScores. -/
structure ScoreFilter where
  title : Option Str
  composer : Option Str
  category : Option Str
  timeSignature : Option Str
  tempo : Option Str
  keySignature : Option Str
deriving DecidableEq

/-- JS truthiness of an optional string criterion: set iff present and
not the empty string. -/
def critSet : Option Str → Bool
  | none => false
  | some s => !(s == [])

/-- JS String.prototype.toLowerCase (ASCII behaviour). -/
def lowerStr (s : Str) : Str := s.map Char.toLower

/-- JS String.prototype.includes: substring containment. -/
def containsSub (hay needle : Str) : Bool :=
  hay.tails.any (fun t => needle.isPrefixOf t)

/-- score.field?.toLowerCase().includes(needle.toLowerCase()): an absent
field makes the whole optional chain falsy. -/
def optFieldHas (field : Option Str) (needle : Str) : Bool :=
  match field with
  | some t => containsSub (lowerStr t) (lowerStr needle)
  | none => false

/-- The per-record predicate of filterScores, mirroring its chain of
early returns. -/
def scoreMatches (f : ScoreFilter) (s : Score) : Bool :=
  if critSet f.title && !(optFieldHas s.title (f.title.getD [])) then false
  else if critSet f.composer && !(optFieldHas s.composer (f.composer.getD [])) then false
  else if critSet f.category &&
      (!(lowerStr s.category == lowerStr (f.category.getD [])) &&
       !(lowerStr s.fullCategory == lowerStr (f.category.getD []))) then false
  else if critSet f.timeSignature && !(s.timeSignature == f.timeSignature) then false
  else if critSet f.tempo && !(s.tempo == f.tempo) then false
  else if critSet f.keySignature && !(s.keySignature == f.keySignature) then false
  else true

/-- filterScores from score-loader, over an already loaded catalog. -/
def filterScores (scores : List Score) : Option ScoreFilter → List Score
  | none => scores
  | some f => scores.filter (scoreMatches f)

/-- JS Set.prototype.add on an insertion-ordered duplicate-free list. -/
def setAdd (l : List Str) (x : Str) : List Str :=
  if l.contains x then l else l ++ [x]

/-- The loop body of getAllCategories: add category always, add
fullCategory when truthy and different from category. -/
def catStep (acc : List Str) (s : Score) : List Str :=
  let acc1 := setAdd acc s.category
  if !(s.fullCategory == []) && !(s.fullCategory == s.category) then
    setAdd acc1 s.fullCategory
  else acc1

/-- The Set accumulation of getAllCategories. -/
def collectCategories (scores : List Score) : List Str :=
  scores.foldl catStep []

/-- The default JS Array.prototype.sort order on strings (lexicographic
by code unit); the algorithm is modelled by insertion sort — on the
duplicate-free set contents the sorted result is unique. -/
def sortStrs (l : List Str) : List Str :=
  List.insertionSort (fun a b : Str => a ≤ b) l

/-- getAllCategories from score-loader, over a loaded catalog. -/
def getAllCategories (scores : List Score) : List Str :=
  sortStrs (collectCategories scores)

/-- The loop body of getAllComposers: add composer when truthy. -/
def compStep (acc : List Str) (s : Score) : List Str :=
  match s.composer with
  | some c => if c == [] then acc else setAdd acc c
  | none => acc

/-- The Set accumulation of getAllComposers. -/
def collectComposers (scores : List Score) : List Str :=
  scores.foldl compStep []

/-- getAllComposers from score-loader, over a loaded catalog. -/
def getAllComposers (scores : List Score) : List Str :=
  sortStrs (collectComposers scores)

/-! ### Lemmas about the backward marker scan -/

theorem getD_append_of_lt {α : Type} (xs ys : List α) (j : Nat) (d : α)
    (h : j < xs.length) : (xs ++ ys).getD j d = xs.getD j d := by
  rw [List.getD_eq_getElem?_getD, List.getD_eq_getElem?_getD,
    List.getElem?_append_left h]

theorem getD_append_of_ge {α : Type} (xs ys : List α) (j : Nat) (d : α)
    (h : xs.length ≤ j) : (xs ++ ys).getD j d = ys.getD (j - xs.length) d := by
  rw [List.getD_eq_getElem?_getD, List.getD_eq_getElem?_getD,
    List.getElem?_append_right h]


theorem scanBack_skip_segment (lines : List Str) (a : Nat) (acc : Option Nat) :
    ∀ b : Nat, a ≤ b →
    (∀ j, a ≤ j → j < b → isMarker (lines.getD j []) = false) →
    scanBack lines b acc = scanBack lines a acc := by
  intro b
  induction b with
  | zero => intro hab _; cases Nat.le_zero.mp hab; rfl
  | succ b ih =>
    intro hab hno
    rcases Nat.lt_or_ge a (b + 1) with h | h
    · have hb : a ≤ b := Nat.lt_succ_iff.mp h
      have hm : isMarker (lines.getD b []) = false := hno b hb (Nat.lt_succ_self b)
      have step : scanBack lines (b + 1) acc = scanBack lines b acc := by
        simp only [scanBack]
        rw [hm]
        simp
      rw [step]
      exact ih hb (fun j hj1 hj2 => hno j hj1 (Nat.lt_succ_of_lt hj2))
    · have heq : a = b + 1 := Nat.le_antisymm hab h
      subst heq; rfl

theorem scanBack_marker_none (lines : List Str) (i : Nat)
    (h : isMarker (lines.getD i []) = true) :
    scanBack lines (i + 1) none = scanBack lines i (some i) := by
  simp only [scanBack]
  rw [h]
  simp

theorem scanBack_marker_some (lines : List Str) (i e : Nat)
    (h : isMarker (lines.getD i []) = true) :
    scanBack lines (i + 1) (some e) = (some i, some e) := by
  simp only [scanBack]
  rw [h]
  simp

/-- The backward scan on a line list whose last two marker lines delimit a
block: it reports exactly those two positions. -/
theorem scanBack_decomp (l₁ l₂ l₃ : List Str) (ms me : Str)
    (hms : isMarker ms = true) (hme : isMarker me = true)
    (h₂ : ∀ l ∈ l₂, isMarker l = false) (h₃ : ∀ l ∈ l₃, isMarker l = false) :
    scanBack (l₁ ++ ms :: (l₂ ++ me :: l₃)) (l₁ ++ ms :: (l₂ ++ me :: l₃)).length none =
      (some l₁.length, some (l₁.length + 1 + l₂.length)) := by
  have hpre : l₁ ++ ms :: (l₂ ++ me :: l₃) = (l₁ ++ ms :: l₂) ++ me :: l₃ := by
    simp
  set lines : List Str := l₁ ++ ms :: (l₂ ++ me :: l₃) with hlines
  have hlen12 : (l₁ ++ ms :: l₂).length = l₁.length + 1 + l₂.length := by
    simp; omega
  have hlen : lines.length = l₁.length + 1 + l₂.length + 1 + l₃.length := by
    simp [hlines]; omega
  have hgs : lines.getD l₁.length [] = ms := by
    rw [hlines, getD_append_of_ge l₁ (ms :: (l₂ ++ me :: l₃)) l₁.length [] (Nat.le_refl _),
      Nat.sub_self, List.getD_cons_zero]
  have hge : lines.getD (l₁.length + 1 + l₂.length) [] = me := by
    rw [hpre, getD_append_of_ge (l₁ ++ ms :: l₂) (me :: l₃)
      (l₁.length + 1 + l₂.length) [] (by omega)]
    rw [hlen12, Nat.sub_self, List.getD_cons_zero]
  have hseg2 : ∀ j, l₁.length + 1 ≤ j → j < l₁.length + 1 + l₂.length →
      isMarker (lines.getD j []) = false := by
    intro j hj1 hj2
    have hjlt : j - (l₁.length + 1) < l₂.length := by omega
    have hget : lines.getD j [] = l₂.getD (j - (l₁.length + 1)) [] := by
      rw [hlines, getD_append_of_ge l₁ (ms :: (l₂ ++ me :: l₃)) j [] (by omega)]
      have hj : j - l₁.length = (j - (l₁.length + 1)) + 1 := by omega
      rw [hj, List.getD_cons_succ, getD_append_of_lt l₂ (me :: l₃) _ [] hjlt]
    rw [hget, List.getD_eq_getElem l₂ [] hjlt]
    exact h₂ _ (List.getElem_mem hjlt)
  have hseg3 : ∀ j, l₁.length + 1 + l₂.length + 1 ≤ j → j < lines.length →
      isMarker (lines.getD j []) = false := by
    intro j hj1 hj2
    have hjlt : j - (l₁.length + 1 + l₂.length + 1) < l₃.length := by omega
    have hget : lines.getD j [] = l₃.getD (j - (l₁.length + 1 + l₂.length + 1)) [] := by
      rw [hpre, getD_append_of_ge (l₁ ++ ms :: l₂) (me :: l₃) j [] (by omega)]
      have hj : j - (l₁ ++ ms :: l₂).length = (j - (l₁.length + 1 + l₂.length + 1)) + 1 := by
        rw [hlen12]; omega
      rw [hj, List.getD_cons_succ]
    rw [hget, List.getD_eq_getElem l₃ [] hjlt]
    exact h₃ _ (List.getElem_mem hjlt)
  calc scanBack lines lines.length none
      = scanBack lines (l₁.length + 1 + l₂.length + 1) none :=
        scanBack_skip_segment lines _ none lines.length (by omega) hseg3
    _ = scanBack lines (l₁.length + 1 + l₂.length) (some (l₁.length + 1 + l₂.length)) :=
        scanBack_marker_none lines _ (by rw [hge]; exact hme)
    _ = scanBack lines (l₁.length + 1) (some (l₁.length + 1 + l₂.length)) :=
        scanBack_skip_segment lines _ _ _ (by omega) hseg2
    _ = (some l₁.length, some (l₁.length + 1 + l₂.length)) :=
        scanBack_marker_some lines _ _ (by rw [hgs]; exact hms)

/-- parseGenFile on any document whose line list ends in a well-formed
marker-delimited block: the body is the text before the block start
(trimmed) and the metadata comes from decoding the block interior. -/
theorem parseGenFile_two_markers (decode : YamlDecoder) (content : Str)
    (l₁ l₂ l₃ : List Str) (ms me : Str)
    (hsplit : splitLines content = l₁ ++ ms :: (l₂ ++ me :: l₃))
    (hms : isMarker ms = true) (hme : isMarker me = true)
    (h₂ : ∀ l ∈ l₂, isMarker l = false) (h₃ : ∀ l ∈ l₃, isMarker l = false) :
    parseGenFile decode content =
      { body := trimStr (joinLines l₁)
        metadata := metadataOfDecode decode (joinLines l₂) } := by
  have hscan := scanBack_decomp l₁ l₂ l₃ ms me hms hme h₂ h₃
  have hcond : ¬ (l₁.length ≥ l₁.length + 1 + l₂.length) := by omega
  have htake : (l₁ ++ ms :: (l₂ ++ me :: l₃)).take l₁.length = l₁ :=
    List.take_left' rfl
  have hdrop : (l₁ ++ ms :: (l₂ ++ me :: l₃)).drop (l₁.length + 1) = l₂ ++ me :: l₃ := by
    have hassoc : l₁ ++ ms :: (l₂ ++ me :: l₃) = (l₁ ++ [ms]) ++ (l₂ ++ me :: l₃) := by
      simp
    rw [hassoc, List.drop_left' (by simp)]
  have htake2 : (l₂ ++ me :: l₃).take (l₁.length + 1 + l₂.length - (l₁.length + 1)) = l₂ := by
    have harith : l₁.length + 1 + l₂.length - (l₁.length + 1) = l₂.length := by omega
    rw [harith]
    exact List.take_left' rfl
  simp only [parseGenFile, hsplit, hscan]
  rw [if_neg hcond, htake, hdrop, htake2]

/-- C1: parsing a text with at least two marker lines (trimmed content
exactly three hyphens) yields a body equal to the lines strictly before
the second-from-the-end marker, rejoined with newline and trimmed, and
metadata equal to the decoded key/value pairs of the block strictly
between the last two markers, keys camel-cased; marker lines earlier in
the text stay inside the body, which the arbitrary prefix l1 allows. -/
theorem C1_parse_trailing_block (decode : YamlDecoder) (content : Str)
    (l₁ l₂ l₃ : List Str) (ms me : Str) (pairs : List (Str × YamlValue))
    (hsplit : splitLines content = l₁ ++ ms :: (l₂ ++ me :: l₃))
    (hms : isMarker ms = true) (hme : isMarker me = true)
    (h₂ : ∀ l ∈ l₂, isMarker l = false) (h₃ : ∀ l ∈ l₃, isMarker l = false)
    (hdec : decode (joinLines l₂) = YamlResult.mapping pairs) :
    parseGenFile decode content =
      { body := trimStr (joinLines l₁)
        metadata := normalizeMetadataKeys pairs } := by
  rw [parseGenFile_two_markers decode content l₁ l₂ l₃ ms me hsplit hms hme h₂ h₃]
  simp [metadataOfDecode, hdec]

/-- A concrete decoder used by the witnesses. -/
def decWitness : YamlDecoder := fun s =>
  if s == strOf "title: X" then
    YamlResult.mapping [(strOf "title", YamlValue.vstr (strOf "X"))]
  else YamlResult.err

theorem C1_parse_trailing_block_witness :
    parseGenFile decWitness (strOf "A\n---\nold\n---\ntitle: X\n---\n") =
      { body := trimStr (joinLines [strOf "A", strOf "---", strOf "old"])
        metadata := normalizeMetadataKeys [(strOf "title", YamlValue.vstr (strOf "X"))] } :=
  C1_parse_trailing_block decWitness (strOf "A\n---\nold\n---\ntitle: X\n---\n")
    [strOf "A", strOf "---", strOf "old"] [strOf "title: X"] [[]]
    (strOf "---") (strOf "---") [(strOf "title", YamlValue.vstr (strOf "X"))]
    (by decide) (by decide) (by decide) (by decide) (by decide) (by decide)

/-- C7: the parser is a total function by construction (every Lean def is
total and deterministic); this theorem settles the interesting half: when
the block between a valid marker pair fails to decode (an exception) or
decodes to null or a scalar, the metadata degrades to the empty mapping
while the body is still the correctly sliced text before the block. -/
theorem C7_malformed_block_degrades (decode : YamlDecoder) (content : Str)
    (l₁ l₂ l₃ : List Str) (ms me : Str)
    (hsplit : splitLines content = l₁ ++ ms :: (l₂ ++ me :: l₃))
    (hms : isMarker ms = true) (hme : isMarker me = true)
    (h₂ : ∀ l ∈ l₂, isMarker l = false) (h₃ : ∀ l ∈ l₃, isMarker l = false)
    (hbad : decode (joinLines l₂) = YamlResult.err ∨
      decode (joinLines l₂) = YamlResult.scalarOrNull) :
    parseGenFile decode content =
      { body := trimStr (joinLines l₁), metadata := [] } := by
  rw [parseGenFile_two_markers decode content l₁ l₂ l₃ ms me hsplit hms hme h₂ h₃]
  rcases hbad with h | h <;> simp [metadataOfDecode, h]

theorem C7_malformed_block_degrades_witness :
    parseGenFile decWitness (strOf "A B C\n---\nbad: [\n---\n") =
      { body := trimStr (joinLines [strOf "A B C"]), metadata := [] } :=
  C7_malformed_block_degrades decWitness (strOf "A B C\n---\nbad: [\n---\n")
    [strOf "A B C"] [strOf "bad: ["] [[]] (strOf "---") (strOf "---")
    (by decide) (by decide) (by decide) (by decide) (by decide) (Or.inl (by decide))

/-! ### Fewer than two markers -/

theorem scanBack_of_no_marker (lines : List Str) :
    ∀ i, (lines.take i).countP isMarker = 0 →
    ∀ acc, scanBack lines i acc = (none, acc) := by
  intro i
  induction i with
  | zero => intro _ acc; rfl
  | succ i ih =>
    intro hcount acc
    rw [List.take_succ, List.countP_append] at hcount
    have h1 : (lines.take i).countP isMarker = 0 := by omega
    have h2 : (lines[i]?.toList).countP isMarker = 0 := by omega
    have hm : isMarker (lines.getD i []) = false := by
      rcases Nat.lt_or_ge i lines.length with hlt | hge
      · rw [List.getD_eq_getElem lines [] hlt]
        rw [List.getElem?_eq_getElem hlt, Option.toList_some] at h2
        rw [List.countP_cons, List.countP_nil] at h2
        rcases Bool.eq_false_or_eq_true (isMarker lines[i]) with h | h
        · rw [h] at h2; simp at h2
        · exact h
      · rw [List.getD_eq_getElem?_getD, List.getElem?_eq_none hge]
        decide
    have step : scanBack lines (i + 1) acc = scanBack lines i acc := by
      simp only [scanBack]
      rw [hm]
      simp
    rw [step]
    exact ih h1 acc

theorem scanBack_first_none_of_le_one (lines : List Str) :
    ∀ i, (lines.take i).countP isMarker ≤ 1 →
    (scanBack lines i none).1 = none := by
  intro i
  induction i with
  | zero => intro _; rfl
  | succ i ih =>
    intro hcount
    rw [List.take_succ, List.countP_append] at hcount
    rcases Bool.eq_false_or_eq_true (isMarker (lines.getD i [])) with hmark | hmark
    · have hlt : i < lines.length := by
        by_contra hge
        rw [List.getD_eq_getElem?_getD, List.getElem?_eq_none (Nat.le_of_not_lt hge)] at hmark
        simp at hmark
        exact absurd hmark (by decide)
      have hone : (lines[i]?.toList).countP isMarker = 1 := by
        rw [List.getElem?_eq_getElem hlt]
        have hgi : isMarker lines[i] = true := by
          rw [← List.getD_eq_getElem lines [] hlt]; exact hmark
        simp [List.countP_cons, hgi]
      have hzero : (lines.take i).countP isMarker = 0 := by omega
      rw [scanBack_marker_none lines i hmark,
        scanBack_of_no_marker lines i hzero (some i)]
    · have step : scanBack lines (i + 1) none = scanBack lines i none := by
        simp only [scanBack]
        rw [hmark]
        simp
      rw [step]
      exact ih (by omega)

/-- C5: a text with fewer than two lines trimming to the marker yields
an empty (but present) metadata mapping and a body equal to the whole
original input, trimmed. -/
theorem C5_fewer_than_two_markers (decode : YamlDecoder) (content : Str)
    (h : (splitLines content).countP isMarker < 2) :
    parseGenFile decode content = { body := trimStr content, metadata := [] } := by
  have hle : ((splitLines content).take (splitLines content).length).countP isMarker ≤ 1 := by
    rw [List.take_length]; omega
  have hfst := scanBack_first_none_of_le_one (splitLines content)
    (splitLines content).length hle
  simp only [parseGenFile]
  rcases hsb : scanBack (splitLines content) (splitLines content).length none with ⟨p1, p2⟩
  rw [hsb] at hfst
  simp at hfst
  subst hfst
  rcases p2 with _ | e <;> rfl

theorem C5_fewer_than_two_markers_witness :
    (splitLines (strOf "E E F G\n---\nonly one")).countP isMarker < 2 ∧
    parseGenFile decWitness (strOf "E E F G\n---\nonly one") =
      { body := trimStr (strOf "E E F G\n---\nonly one"), metadata := [] } :=
  ⟨by decide, C5_fewer_than_two_markers decWitness (strOf "E E F G\n---\nonly one") (by decide)⟩

/-! ### Splitting and joining lines -/

theorem splitOnChar_ne_nil (sep : Char) (s : Str) : splitOnChar sep s ≠ [] := by
  cases s with
  | nil => simp [splitOnChar]
  | cons c rest =>
    simp only [splitOnChar]
    split
    · simp
    · split <;> simp

theorem splitOnChar_cons_sep (sep c : Char) (rest : Str) (hc : (c == sep) = true) :
    splitOnChar sep (c :: rest) = [] :: splitOnChar sep rest := by
  simp [splitOnChar, hc]

theorem splitOnChar_cons_other (sep c : Char) (rest : Str) (hc : (c == sep) = false)
    (l : Str) (ls : List Str) (h : splitOnChar sep rest = l :: ls) :
    splitOnChar sep (c :: rest) = (c :: l) :: ls := by
  simp [splitOnChar, hc, h]

theorem splitOnChar_append (sep : Char) (x y : Str) :
    splitOnChar sep (x ++ sep :: y) = splitOnChar sep x ++ splitOnChar sep y := by
  induction x with
  | nil => simp [splitOnChar]
  | cons c x ih =>
    show splitOnChar sep (c :: (x ++ sep :: y)) = splitOnChar sep (c :: x) ++ splitOnChar sep y
    rcases Bool.eq_false_or_eq_true (c == sep) with hc | hc
    · rw [splitOnChar_cons_sep sep c _ hc, splitOnChar_cons_sep sep c x hc, ih]
      rfl
    · obtain ⟨l, ls, hx⟩ := List.exists_cons_of_ne_nil (splitOnChar_ne_nil sep x)
      have hx2 : splitOnChar sep (x ++ sep :: y) = l :: (ls ++ splitOnChar sep y) := by
        rw [ih, hx]
        rfl
      rw [splitOnChar_cons_other sep c _ hc l (ls ++ splitOnChar sep y) hx2,
        splitOnChar_cons_other sep c x hc l ls hx]
      rfl

theorem joinWith_splitOnChar (sep : Char) (s : Str) :
    joinWith sep (splitOnChar sep s) = s := by
  induction s with
  | nil => rfl
  | cons c rest ih =>
    rcases Bool.eq_false_or_eq_true (c == sep) with hc | hc
    · have hceq : c = sep := eq_of_beq hc
      simp only [splitOnChar, hc, if_true]
      obtain ⟨l, ls, hx⟩ := List.exists_cons_of_ne_nil (splitOnChar_ne_nil sep rest)
      rw [hx]
      rw [hx] at ih
      show [] ++ sep :: joinWith sep (l :: ls) = c :: rest
      rw [List.nil_append, ih, hceq]
    · simp only [splitOnChar, hc, if_false]
      obtain ⟨l, ls, hx⟩ := List.exists_cons_of_ne_nil (splitOnChar_ne_nil sep rest)
      rw [hx]
      rw [hx] at ih
      cases ls with
      | nil =>
        show c :: l = c :: rest
        rw [show joinWith sep [l] = l from rfl] at ih
        rw [ih]
      | cons l' ls' =>
        show (c :: l) ++ sep :: joinWith sep (l' :: ls') = c :: rest
        rw [show joinWith sep (l :: l' :: ls') = l ++ sep :: joinWith sep (l' :: ls') from rfl]
          at ih
        rw [List.cons_append, ih]

/-! ### Normalization of a mapping with distinct camel-cased keys -/

theorem insertKV_of_fresh_key (m : List (Str × Str)) (k v : Str)
    (h : ∀ q ∈ m, q.1 ≠ k) : insertKV m k v = m ++ [(k, v)] := by
  have hany : m.any (fun p => p.1 == k) = false := by
    rw [List.any_eq_false]
    intro p hp
    simp only [beq_iff_eq]
    exact h p hp
  simp [insertKV, hany]

theorem normalizeFold_of_nodup (M : List (Str × YamlValue)) :
    ∀ acc : List (Str × Str),
    (∀ p ∈ M, ∀ q ∈ acc, q.1 ≠ camelizeChars p.1) →
    (M.map (fun p => camelizeChars p.1)).Nodup →
    M.foldl (fun acc p => insertKV acc (camelizeChars p.1) (yamlValueToString p.2)) acc =
      acc ++ M.map (fun p => (camelizeChars p.1, yamlValueToString p.2)) := by
  induction M with
  | nil => intro acc _ _; simp
  | cons hd tl ih =>
    intro acc hdisj hnodup
    simp only [List.map_cons, List.nodup_cons] at hnodup
    simp only [List.foldl_cons]
    rw [insertKV_of_fresh_key acc _ _
      (fun q hq => hdisj hd (List.mem_cons_self hd tl) q hq)]
    rw [ih (acc ++ [(camelizeChars hd.1, yamlValueToString hd.2)])
      (by
        intro p hp q hq
        rcases List.mem_append.mp hq with hq | hq
        · exact hdisj p (List.mem_cons_of_mem hd hp) q hq
        · have hqe : q = (camelizeChars hd.1, yamlValueToString hd.2) := by
            simpa using hq
          rw [hqe]
          show camelizeChars hd.1 ≠ camelizeChars p.1
          intro hcontra
          exact hnodup.1 (by
            rw [hcontra]
            exact List.mem_map_of_mem (fun p => camelizeChars p.1) hp))
      hnodup.2]
    simp

theorem normalizeMetadataKeys_of_nodup (M : List (Str × YamlValue))
    (hnodup : (M.map (fun p => camelizeChars p.1)).Nodup) :
    normalizeMetadataKeys M =
      M.map (fun p => (camelizeChars p.1, yamlValueToString p.2)) := by
  unfold normalizeMetadataKeys
  rw [normalizeFold_of_nodup M [] (by intro p _ q hq; cases hq) hnodup]
  simp

/-- C3: round-trip. Serializing a body B and a mapping M as
B + newline-marker-newline + enc + newline-marker-newline, where enc is
any encoding of M that decodes back to M and contains no marker line,
then parsing, recovers trim(B) as the body and M with camel-cased keys
and stringified values as the metadata (keys assumed distinct after
camel-casing, as produced by an encoder of a mapping). -/
theorem C3_round_trip (decode : YamlDecoder) (B enc : Str) (M : List (Str × YamlValue))
    (hencLines : ∀ l ∈ splitLines enc, isMarker l = false)
    (hdec : decode enc = YamlResult.mapping M)
    (hkeys : (M.map (fun p => camelizeChars p.1)).Nodup) :
    parseGenFile decode (B ++ strOf "\n---\n" ++ enc ++ strOf "\n---\n") =
      { body := trimStr B
        metadata := M.map (fun p => (camelizeChars p.1, yamlValueToString p.2)) } := by
  have h1 : strOf "\n---\n" = ['\n'] ++ strOf "---" ++ ['\n'] := by decide
  have hsplit : splitLines (B ++ strOf "\n---\n" ++ enc ++ strOf "\n---\n") =
      splitLines B ++ strOf "---" :: (splitLines enc ++ strOf "---" :: [([] : Str)]) := by
    rw [h1]
    have hshape : B ++ (['\n'] ++ strOf "---" ++ ['\n']) ++ enc ++ (['\n'] ++ strOf "---" ++ ['\n']) =
        B ++ '\n' :: (strOf "---" ++ '\n' :: (enc ++ '\n' :: (strOf "---" ++ '\n' :: ([] : Str)))) := by
      simp
    rw [hshape]
    show splitOnChar '\n' _ = _
    rw [splitOnChar_append, splitOnChar_append, splitOnChar_append, splitOnChar_append]
    rw [show splitOnChar '\n' (strOf "---") = [strOf "---"] from by decide]
    rw [show splitOnChar '\n' ([] : Str) = [([] : Str)] from rfl]
    simp [splitLines]
  have hparse := parseGenFile_two_markers decode
    (B ++ strOf "\n---\n" ++ enc ++ strOf "\n---\n")
    (splitLines B) (splitLines enc) [([] : Str)] (strOf "---") (strOf "---")
    hsplit (by decide) (by decide) hencLines (by decide)
  rw [hparse]
  have hB : joinLines (splitLines B) = B := joinWith_splitOnChar '\n' B
  have henc : joinLines (splitLines enc) = enc := joinWith_splitOnChar '\n' enc
  rw [hB, henc]
  simp [metadataOfDecode, hdec, normalizeMetadataKeys_of_nodup M hkeys]

/-- A concrete decoder for the round-trip witness. -/
def decWitnessRT : YamlDecoder := fun s =>
  if s == strOf "tempo: 120" then YamlResult.mapping [(strOf "tempo", YamlValue.vint 120)]
  else YamlResult.err

theorem C3_round_trip_witness :
    parseGenFile decWitnessRT (strOf "E E" ++ strOf "\n---\n" ++ strOf "tempo: 120" ++ strOf "\n---\n") =
      { body := trimStr (strOf "E E")
        metadata := [(strOf "tempo", YamlValue.vint 120)].map
          (fun p => (camelizeChars p.1, yamlValueToString p.2)) } :=
  C3_round_trip decWitnessRT (strOf "E E") (strOf "tempo: 120")
    [(strOf "tempo", YamlValue.vint 120)] (by decide) (by decide) (by decide)

/-! ### Camel-casing: the replacement reaches a fixpoint in one pass -/

/-- No hyphen immediately followed by a lowercase ASCII letter occurs. -/
def noHyphenLower : Str → Bool
  | [] => true
  | [_] => true
  | a :: b :: rest => !(a == '-' && b.isLower) && noHyphenLower (b :: rest)

theorem toUpper_of_lower_facts (c : Char) (h : c.isLower = true) :
    ((c.toUpper).isLower = false) ∧ ((c.toUpper == '-') = false) := by
  have hn : 97 ≤ c.toNat ∧ c.toNat ≤ 122 := by
    simp [Char.isLower] at h
    exact h
  obtain ⟨h1, h2⟩ := hn
  rw [← Char.ofNat_toNat c]
  generalize c.toNat = n at h1 h2
  interval_cases n <;> decide

theorem camelize_dash_lower (c : Char) (rest : Str) (hc : c.isLower = true) :
    camelizeChars ('-' :: c :: rest) = c.toUpper :: camelizeChars rest := by
  simp [camelizeChars, hc]

theorem camelize_dash_other (c : Char) (rest : Str) (hc : c.isLower = false) :
    camelizeChars ('-' :: c :: rest) = '-' :: camelizeChars (c :: rest) := by
  simp [camelizeChars, hc]

theorem camelize_cons_ne (c : Char) (rest : Str) (hc : c ≠ '-') :
    camelizeChars (c :: rest) = c :: camelizeChars rest := by
  cases rest with
  | nil => simp [camelizeChars, hc]
  | cons d rest' => simp [camelizeChars, hc]

theorem band_parts {a b : Bool} (h : (a && b) = true) : a = true ∧ b = true := by
  simp at h
  exact h

theorem noHyphenLower_cons (x : Char) (ys : Str) (hx : (x == '-') = false)
    (hys : noHyphenLower ys = true) : noHyphenLower (x :: ys) = true := by
  cases ys with
  | nil => rfl
  | cons b rest =>
    show (!(x == '-' && b.isLower) && noHyphenLower (b :: rest)) = true
    rw [hx, hys]
    rfl

theorem camelize_cons_head_not_lower (c : Char) (rest : Str) (hc : c.isLower = false) :
    ∀ b t, camelizeChars (c :: rest) = b :: t → b.isLower = false := by
  intro b t h
  by_cases hdash : c = '-'
  · subst hdash
    cases rest with
    | nil =>
      rw [show camelizeChars ['-'] = ['-'] from rfl] at h
      cases h
      decide
    | cons d rest' =>
      rcases Bool.eq_false_or_eq_true d.isLower with hd | hd
      · rw [camelize_dash_lower d rest' hd] at h
        cases h
        exact (toUpper_of_lower_facts d hd).1
      · rw [camelize_dash_other d rest' hd] at h
        cases h
        decide
  · rw [camelize_cons_ne c rest hdash] at h
    cases h
    exact hc

theorem noHyphenLower_camelize (l : Str) : noHyphenLower (camelizeChars l) = true := by
  induction l using camelizeChars.induct with
  | case1 => rfl
  | case2 c rest hc ih =>
    rw [camelize_dash_lower c rest hc]
    exact noHyphenLower_cons _ _ (toUpper_of_lower_facts c hc).2 ih
  | case3 c rest hc ih =>
    have hc' : c.isLower = false := by
      rcases Bool.eq_false_or_eq_true c.isLower with h | h
      · exact absurd h hc
      · exact h
    rw [camelize_dash_other c rest hc']
    rcases hz : camelizeChars (c :: rest) with _ | ⟨b, t⟩
    · rfl
    · have hb : b.isLower = false := camelize_cons_head_not_lower c rest hc' b t hz
      show (!(('-' : Char) == '-' && b.isLower) && noHyphenLower (b :: t)) = true
      rw [hb]
      rw [hz] at ih
      rw [ih]
      rfl
  | case4 c rest hne ih =>
    cases rest with
    | nil =>
      by_cases hdash : c = '-'
      · subst hdash
        rfl
      · rw [camelize_cons_ne c [] hdash]
        rfl
    | cons d rest' =>
      have hcne : c ≠ '-' := fun he => hne d rest' he rfl
      rw [camelize_cons_ne c (d :: rest') hcne]
      exact noHyphenLower_cons _ _ (beq_eq_false_iff_ne.mpr hcne) ih

theorem camelize_of_noHyphenLower (l : Str) (h : noHyphenLower l = true) :
    camelizeChars l = l := by
  induction l using camelizeChars.induct with
  | case1 => rfl
  | case2 c rest hc ih =>
    exfalso
    have h' : (!(('-' : Char) == '-' && c.isLower) && noHyphenLower (c :: rest)) = true := h
    rw [hc] at h'
    simp at h'
  | case3 c rest hc ih =>
    have hc' : c.isLower = false := by
      rcases Bool.eq_false_or_eq_true c.isLower with h0 | h0
      · exact absurd h0 hc
      · exact h0
    rw [camelize_dash_other c rest hc']
    have h' : (!(('-' : Char) == '-' && c.isLower) && noHyphenLower (c :: rest)) = true := h
    have h2 := (band_parts h').2
    rw [ih h2]
  | case4 c rest hne ih =>
    cases rest with
    | nil =>
      by_cases hdash : c = '-'
      · subst hdash
        rfl
      · rw [camelize_cons_ne c [] hdash]
        rfl
    | cons d rest' =>
      have hcne : c ≠ '-' := fun he => hne d rest' he rfl
      rw [camelize_cons_ne c (d :: rest') hcne]
      have h' : (!(c == '-' && d.isLower) && noHyphenLower (d :: rest')) = true := h
      rw [ih ((band_parts h').2)]

theorem camelize_idem (l : Str) : camelizeChars (camelizeChars l) = camelizeChars l :=
  camelize_of_noHyphenLower _ (noHyphenLower_camelize l)

/-! ### Membership in the normalized metadata -/

theorem mem_insertKV (m : List (Str × Str)) (k v : Str) (q : Str × Str)
    (hq : q ∈ insertKV m k v) : q ∈ m ∨ q = (k, v) := by
  unfold insertKV at hq
  by_cases hany : m.any (fun p => p.1 == k) = true
  · rw [if_pos hany] at hq
    obtain ⟨p, hp, hpe⟩ := List.mem_map.mp hq
    rcases Bool.eq_false_or_eq_true (p.1 == k) with hpk | hpk
    · right
      rw [← hpe, if_pos hpk]
    · left
      rw [← hpe, if_neg (by rw [hpk]; exact Bool.false_ne_true)]
      exact hp
  · rw [if_neg hany] at hq
    rcases List.mem_append.mp hq with h | h
    · left; exact h
    · right; simpa using h

theorem self_mem_insertKV (m : List (Str × Str)) (k v : Str) : (k, v) ∈ insertKV m k v := by
  unfold insertKV
  by_cases hany : m.any (fun p => p.1 == k) = true
  · rw [if_pos hany]
    obtain ⟨p, hp, hpk⟩ := List.any_eq_true.mp hany
    refine List.mem_map.mpr ⟨p, hp, ?_⟩
    rw [if_pos hpk]
  · rw [if_neg hany]
    exact List.mem_append_right m (by simp)

theorem key_mem_insertKV_of_mem (m : List (Str × Str)) (k v k0 w : Str)
    (hw : (k0, w) ∈ m) : ∃ w', (k0, w') ∈ insertKV m k v := by
  rcases Bool.eq_false_or_eq_true (k0 == k) with hk | hk
  · have hk0 : k0 = k := eq_of_beq hk
    subst hk0
    exact ⟨v, self_mem_insertKV m k0 v⟩
  · unfold insertKV
    by_cases hany : m.any (fun p => p.1 == k) = true
    · rw [if_pos hany]
      refine ⟨w, List.mem_map.mpr ⟨(k0, w), hw, ?_⟩⟩
      rw [if_neg (by show ((k0, w).1 == k) ≠ true; rw [show (k0, w).1 = k0 from rfl, hk]; exact Bool.false_ne_true)]
    · rw [if_neg hany]
      exact ⟨w, List.mem_append_left _ hw⟩

theorem normalizeFold_preserves_key (pairs : List (Str × YamlValue)) :
    ∀ (acc : List (Str × Str)) (k0 w : Str), (k0, w) ∈ acc →
    ∃ w', (k0, w') ∈ pairs.foldl
      (fun acc p => insertKV acc (camelizeChars p.1) (yamlValueToString p.2)) acc := by
  induction pairs with
  | nil => intro acc k0 w hw; exact ⟨w, hw⟩
  | cons hd tl ih =>
    intro acc k0 w hw
    simp only [List.foldl_cons]
    obtain ⟨w', hw'⟩ := key_mem_insertKV_of_mem acc (camelizeChars hd.1)
      (yamlValueToString hd.2) k0 w hw
    exact ih _ k0 w' hw'

theorem key_mem_normalizeFold (pairs : List (Str × YamlValue)) :
    ∀ (acc : List (Str × Str)), ∀ p ∈ pairs,
    ∃ w, (camelizeChars p.1, w) ∈ pairs.foldl
      (fun acc p => insertKV acc (camelizeChars p.1) (yamlValueToString p.2)) acc := by
  induction pairs with
  | nil => intro acc p hp; cases hp
  | cons hd tl ih =>
    intro acc p hp
    simp only [List.foldl_cons]
    rcases List.mem_cons.mp hp with rfl | hp
    · exact normalizeFold_preserves_key tl _ _ _ (self_mem_insertKV acc _ _)
    · exact ih _ p hp

theorem mem_normalizeFold (pairs : List (Str × YamlValue)) :
    ∀ (acc : List (Str × Str)) (q : Str × Str),
    q ∈ pairs.foldl (fun acc p => insertKV acc (camelizeChars p.1) (yamlValueToString p.2)) acc →
    q ∈ acc ∨ ∃ p ∈ pairs, q.1 = camelizeChars p.1 ∧ q.2 = yamlValueToString p.2 := by
  induction pairs with
  | nil => intro acc q hq; left; exact hq
  | cons hd tl ih =>
    intro acc q hq
    simp only [List.foldl_cons] at hq
    rcases ih _ q hq with hacc | ⟨p, hp, h1, h2⟩
    · rcases mem_insertKV _ _ _ q hacc with hm | he
      · left; exact hm
      · right
        exact ⟨hd, List.mem_cons_self hd tl, by rw [he], by rw [he]⟩
    · right
      exact ⟨p, List.mem_cons_of_mem hd hp, h1, h2⟩

/-- C6: every entry of the normalized metadata is a camel-cased key with
a stringified value of some decoded entry, every decoded key occurs
camel-cased in the result, and camel-casing replaces hyphen+lowercase
pairs exhaustively: its result has no such pair left and a second pass
changes nothing (so repeating until exhaustion equals the single pass). -/
theorem C6_key_normalization (pairs : List (Str × YamlValue)) :
    (∀ q ∈ normalizeMetadataKeys pairs,
      ∃ p ∈ pairs, q.1 = camelizeChars p.1 ∧ q.2 = yamlValueToString p.2) ∧
    (∀ p ∈ pairs, ∃ w, (camelizeChars p.1, w) ∈ normalizeMetadataKeys pairs) ∧
    (∀ k : Str, noHyphenLower (camelizeChars k) = true) ∧
    (∀ k : Str, camelizeChars (camelizeChars k) = camelizeChars k) := by
  refine ⟨?_, ?_, noHyphenLower_camelize, camelize_idem⟩
  · intro q hq
    rcases mem_normalizeFold pairs [] q hq with h | h
    · cases h
    · exact h
  · intro p hp
    exact key_mem_normalizeFold pairs [] p hp

theorem C6_key_normalization_witness :
    (strOf "timeSignature", strOf "4/4") ∈
      normalizeMetadataKeys [(strOf "time-signature", YamlValue.vstr (strOf "4/4"))] ∧
    camelizeChars (camelizeChars (strOf "time-signature")) = camelizeChars (strOf "time-signature") :=
  ⟨by decide,
    (C6_key_normalization [(strOf "time-signature", YamlValue.vstr (strOf "4/4"))]).2.2.2
      (strOf "time-signature")⟩

/-! ### The filter predicate -/

theorem guard_chain (a b r : Bool) :
    (if (a && !b) = true then false else r) = ((!a || b) && r) := by
  cases a <;> cases b <;> simp

theorem guard_chain2 (a b c r : Bool) :
    (if (a && (!b && !c)) = true then false else r) = ((!a || (b || c)) && r) := by
  cases a <;> cases b <;> cases c <;> simp

/-- The per-record predicate exactly as claim C2 words it: the
conjunction over the set criteria, with substring containment
(case-insensitive) for title and composer, case-insensitive exact match
on category or fullCategory for category, and case-sensitive exact match
for the remaining three; a record lacking an optional field fails a set
criterion on it. Stated separately from scoreMatches to compare spec and
code. -/
def claimMatches (f : ScoreFilter) (s : Score) : Bool :=
  (!(critSet f.title) || optFieldHas s.title (f.title.getD [])) &&
  ((!(critSet f.composer) || optFieldHas s.composer (f.composer.getD [])) &&
  ((!(critSet f.category) ||
    (lowerStr s.category == lowerStr (f.category.getD []) ||
     lowerStr s.fullCategory == lowerStr (f.category.getD []))) &&
  ((!(critSet f.timeSignature) || s.timeSignature == f.timeSignature) &&
  ((!(critSet f.tempo) || s.tempo == f.tempo) &&
  (!(critSet f.keySignature) || s.keySignature == f.keySignature)))))

theorem scoreMatches_eq_claimMatches (f : ScoreFilter) (s : Score) :
    scoreMatches f s = claimMatches f s := by
  unfold scoreMatches claimMatches
  rw [guard_chain, guard_chain, guard_chain2, guard_chain, guard_chain, guard_chain,
    Bool.and_true]

/-- C2: with at least one criterion set, filterScores returns exactly the
records, in cache order, satisfying the conjunction of the set criteria
as the specification words them (claimMatches). -/
theorem C2_filter_conjunction (scores : List Score) (f : ScoreFilter)
    (hset : critSet f.title = true ∨ critSet f.composer = true ∨
      critSet f.category = true ∨ critSet f.timeSignature = true ∨
      critSet f.tempo = true ∨ critSet f.keySignature = true) :
    filterScores scores (some f) = scores.filter (claimMatches f) := by
  unfold filterScores
  exact List.filter_congr (fun s _ => scoreMatches_eq_claimMatches f s)

/-- Records and a filter used by the filter witnesses. -/
def scoreBach : Score :=
  { path := strOf "classical/air.gen", filename := strOf "air.gen"
    category := strOf "classical", fullCategory := strOf "classical"
    content := [], body := [], title := some (strOf "Air")
    composer := some (strOf "Johann Sebastian Bach")
    timeSignature := none, tempo := none, keySignature := none, metadata := [] }

def scoreMozart : Score :=
  { path := strOf "classical/rondo.gen", filename := strOf "rondo.gen"
    category := strOf "classical", fullCategory := strOf "classical"
    content := [], body := [], title := some (strOf "Rondo")
    composer := some (strOf "Mozart")
    timeSignature := none, tempo := none, keySignature := none, metadata := [] }

def scoreBare : Score :=
  { path := strOf "x.gen", filename := strOf "x.gen"
    category := strOf "x.gen", fullCategory := []
    content := [], body := [], title := none, composer := none
    timeSignature := none, tempo := none, keySignature := none, metadata := [] }

def filterBach : ScoreFilter :=
  { title := none, composer := some (strOf "bach"), category := none
    timeSignature := none, tempo := none, keySignature := none }

theorem C2_filter_conjunction_witness :
    filterScores [scoreBach, scoreMozart] (some filterBach) =
      [scoreBach, scoreMozart].filter (claimMatches filterBach) ∧
    [scoreBach, scoreMozart].filter (claimMatches filterBach) = [scoreBach] :=
  ⟨C2_filter_conjunction [scoreBach, scoreMozart] filterBach
      (Or.inr (Or.inl (by decide))),
    by decide⟩

theorem filterScores_congr (scores : List Score) (f f' : ScoreFilter)
    (h : ∀ s, claimMatches f s = claimMatches f' s) :
    filterScores scores (some f) = filterScores scores (some f') := by
  unfold filterScores
  apply List.filter_congr
  intro s _
  rw [scoreMatches_eq_claimMatches, scoreMatches_eq_claimMatches, h]

/-- C10: a criterion that is present but the empty string is falsy in
the guards, so it imposes no constraint: whatever the other criteria
are, erasing it (setting it to none) leaves the result of filterScores
unchanged — in particular records lacking the corresponding field are
still returned under it — and when every criterion is unset or empty
the whole catalog comes back in cache order. -/
theorem C10_empty_criteria_no_constraint (scores : List Score) (f : ScoreFilter) :
    (f.title = some [] →
      filterScores scores (some f) =
        filterScores scores (some { f with title := none })) ∧
    (f.composer = some [] →
      filterScores scores (some f) =
        filterScores scores (some { f with composer := none })) ∧
    (f.category = some [] →
      filterScores scores (some f) =
        filterScores scores (some { f with category := none })) ∧
    (f.timeSignature = some [] →
      filterScores scores (some f) =
        filterScores scores (some { f with timeSignature := none })) ∧
    (f.tempo = some [] →
      filterScores scores (some f) =
        filterScores scores (some { f with tempo := none })) ∧
    (f.keySignature = some [] →
      filterScores scores (some f) =
        filterScores scores (some { f with keySignature := none })) ∧
    (((f.title = none ∨ f.title = some []) ∧
      (f.composer = none ∨ f.composer = some []) ∧
      (f.category = none ∨ f.category = some []) ∧
      (f.timeSignature = none ∨ f.timeSignature = some []) ∧
      (f.tempo = none ∨ f.tempo = some []) ∧
      (f.keySignature = none ∨ f.keySignature = some [])) →
      filterScores scores (some f) = scores) := by
  refine ⟨?_, ?_, ?_, ?_, ?_, ?_, ?_⟩
  · intro h
    apply filterScores_congr
    intro s
    unfold claimMatches
    rw [h]
    rfl
  · intro h
    apply filterScores_congr
    intro s
    unfold claimMatches
    rw [h]
    rfl
  · intro h
    apply filterScores_congr
    intro s
    unfold claimMatches
    rw [h]
    rfl
  · intro h
    apply filterScores_congr
    intro s
    unfold claimMatches
    rw [h]
    rfl
  · intro h
    apply filterScores_congr
    intro s
    unfold claimMatches
    rw [h]
    rfl
  · intro h
    apply filterScores_congr
    intro s
    unfold claimMatches
    rw [h]
    rfl
  · rintro ⟨ht, hc, hk, hts, htp, hks⟩
    have e1 : critSet f.title = false := by rcases ht with h | h <;> simp [h, critSet]
    have e2 : critSet f.composer = false := by rcases hc with h | h <;> simp [h, critSet]
    have e3 : critSet f.category = false := by rcases hk with h | h <;> simp [h, critSet]
    have e4 : critSet f.timeSignature = false := by
      rcases hts with h | h <;> simp [h, critSet]
    have e5 : critSet f.tempo = false := by rcases htp with h | h <;> simp [h, critSet]
    have e6 : critSet f.keySignature = false := by
      rcases hks with h | h <;> simp [h, critSet]
    have hmatch : ∀ s, scoreMatches f s = true := by
      intro s
      unfold scoreMatches
      rw [e1, e2, e3, e4, e5, e6]
      simp
    unfold filterScores
    exact List.filter_eq_self.mpr (fun s _ => hmatch s)

def filterAllEmpty : ScoreFilter :=
  { title := some [], composer := some [], category := some []
    timeSignature := some [], tempo := some [], keySignature := some [] }

/-- A mixed filter: an empty title criterion next to a set composer
criterion. -/
def filterMixed : ScoreFilter :=
  { title := some [], composer := some (strOf "bach"), category := none
    timeSignature := none, tempo := none, keySignature := none }

theorem C10_empty_criteria_no_constraint_witness :
    (filterScores [scoreBach, scoreBare] (some filterMixed) =
      filterScores [scoreBach, scoreBare] (some { filterMixed with title := none })) ∧
    filterScores [scoreBach, scoreBare] (some filterMixed) = [scoreBach] ∧
    filterScores [scoreBach, scoreBare] (some filterAllEmpty) = [scoreBach, scoreBare] :=
  ⟨(C10_empty_criteria_no_constraint [scoreBach, scoreBare] filterMixed).1 rfl,
    by decide,
    (C10_empty_criteria_no_constraint [scoreBach, scoreBare] filterAllEmpty).2.2.2.2.2.2
      ⟨Or.inr rfl, Or.inr rfl, Or.inr rfl, Or.inr rfl, Or.inr rfl, Or.inr rfl⟩⟩

/-! ### Path-derived category fields -/

/-- C4: the constructed record's category is the first segment of the
relative path and its fullCategory is every segment but the filename,
joined with slashes; for a top-level file — one directly inside a
top-level directory, so with a two-segment relative path — the two
coincide. -/
theorem C4_category_derivation (decode : YamlDecoder) (relativePath content : Str) :
    (mkScore decode relativePath content).category = (pathParts relativePath).headD [] ∧
    (mkScore decode relativePath content).fullCategory =
      joinWith '/' (pathParts relativePath).dropLast ∧
    ((pathParts relativePath).length = 2 →
      (mkScore decode relativePath content).fullCategory =
        (mkScore decode relativePath content).category) := by
  refine ⟨rfl, rfl, ?_⟩
  intro h2
  obtain ⟨a, b, hab⟩ := List.length_eq_two.mp h2
  show joinWith '/' (pathParts relativePath).dropLast = (pathParts relativePath).headD []
  rw [hab]
  rfl

theorem C4_category_derivation_witness :
    (pathParts (strOf "ensemble/star-wars.gen")).length = 2 ∧
    (mkScore decWitness (strOf "ensemble/star-wars.gen") (strOf "A")).fullCategory =
      (mkScore decWitness (strOf "ensemble/star-wars.gen") (strOf "A")).category :=
  ⟨by decide,
    (C4_category_derivation decWitness (strOf "ensemble/star-wars.gen") (strOf "A")).2.2
      (by decide)⟩

/-! ### Category and composer enumeration -/

theorem mem_setAdd (l : List Str) (x y : Str) : y ∈ setAdd l x ↔ y ∈ l ∨ y = x := by
  unfold setAdd
  by_cases h : l.contains x = true
  · rw [if_pos h]
    have hx : x ∈ l := List.elem_iff.mp h
    constructor
    · exact Or.inl
    · rintro (hy | rfl)
      · exact hy
      · exact hx
  · rw [if_neg h]
    simp

theorem nodup_setAdd (l : List Str) (x : Str) (h : l.Nodup) : (setAdd l x).Nodup := by
  unfold setAdd
  by_cases hc : l.contains x = true
  · rw [if_pos hc]
    exact h
  · rw [if_neg hc]
    have hx : x ∉ l := fun hmem => hc (List.elem_iff.mpr hmem)
    simp [List.nodup_append, h, hx]

theorem catCond_iff (s : Score) :
    ((!(s.fullCategory == []) && !(s.fullCategory == s.category)) = true) ↔
      (s.fullCategory ≠ [] ∧ s.fullCategory ≠ s.category) := by
  simp

theorem mem_catStep (acc : List Str) (s : Score) (x : Str) :
    x ∈ catStep acc s ↔
      x ∈ acc ∨ x = s.category ∨
        (x = s.fullCategory ∧ s.fullCategory ≠ [] ∧ s.fullCategory ≠ s.category) := by
  unfold catStep
  by_cases hcond : s.fullCategory ≠ [] ∧ s.fullCategory ≠ s.category
  · rw [if_pos ((catCond_iff s).mpr hcond)]
    simp only [mem_setAdd]
    constructor
    · rintro ((h | h) | h)
      · exact Or.inl h
      · exact Or.inr (Or.inl h)
      · exact Or.inr (Or.inr ⟨h, hcond⟩)
    · rintro (h | h | ⟨h, _⟩)
      · exact Or.inl (Or.inl h)
      · exact Or.inl (Or.inr h)
      · exact Or.inr h
  · rw [if_neg (fun hb => hcond ((catCond_iff s).mp hb))]
    simp only [mem_setAdd]
    constructor
    · rintro (h | h)
      · exact Or.inl h
      · exact Or.inr (Or.inl h)
    · rintro (h | h | ⟨_, hp⟩)
      · exact Or.inl h
      · exact Or.inr h
      · exact absurd hp hcond

theorem nodup_catStep (acc : List Str) (s : Score) (h : acc.Nodup) : (catStep acc s).Nodup := by
  unfold catStep
  split
  · exact nodup_setAdd _ _ (nodup_setAdd _ _ h)
  · exact nodup_setAdd _ _ h

theorem mem_foldl_catStep (scores : List Score) :
    ∀ (acc : List Str) (x : Str), x ∈ scores.foldl catStep acc ↔
      x ∈ acc ∨ ∃ s ∈ scores, x = s.category ∨
        (x = s.fullCategory ∧ s.fullCategory ≠ [] ∧ s.fullCategory ≠ s.category) := by
  induction scores with
  | nil => intro acc x; simp
  | cons hd tl ih =>
    intro acc x
    rw [List.foldl_cons, ih, mem_catStep]
    constructor
    · rintro ((h | h | h) | ⟨s, hs, hor⟩)
      · exact Or.inl h
      · exact Or.inr ⟨hd, List.mem_cons_self hd tl, Or.inl h⟩
      · exact Or.inr ⟨hd, List.mem_cons_self hd tl, Or.inr h⟩
      · exact Or.inr ⟨s, List.mem_cons_of_mem hd hs, hor⟩
    · rintro (h | ⟨s, hs, hor⟩)
      · exact Or.inl (Or.inl h)
      · rcases List.mem_cons.mp hs with rfl | hs
        · exact Or.inl (Or.inr hor)
        · exact Or.inr ⟨s, hs, hor⟩

theorem nodup_foldl_catStep (scores : List Score) :
    ∀ acc : List Str, acc.Nodup → (scores.foldl catStep acc).Nodup := by
  induction scores with
  | nil => intro acc h; exact h
  | cons hd tl ih =>
    intro acc h
    rw [List.foldl_cons]
    exact ih _ (nodup_catStep acc hd h)

theorem mem_compStep (acc : List Str) (s : Score) (x : Str) :
    x ∈ compStep acc s ↔ x ∈ acc ∨ (s.composer = some x ∧ x ≠ []) := by
  unfold compStep
  rcases hcomp : s.composer with _ | c
  · constructor
    · exact Or.inl
    · rintro (h | ⟨he, _⟩)
      · exact h
      · cases he
  · show x ∈ (if (c == []) = true then acc else setAdd acc c) ↔
      x ∈ acc ∨ (some c = some x ∧ x ≠ [])
    rcases Bool.eq_false_or_eq_true (c == []) with hce | hce
    · rw [if_pos hce]
      have hc0 : c = [] := eq_of_beq hce
      subst hc0
      constructor
      · exact Or.inl
      · rintro (h | ⟨he, hne⟩)
        · exact h
        · cases he
          exact absurd rfl hne
    · rw [if_neg (by rw [hce]; exact Bool.false_ne_true)]
      rw [mem_setAdd]
      have hcne : c ≠ [] := fun he => by rw [he] at hce; simp at hce
      constructor
      · rintro (h | rfl)
        · exact Or.inl h
        · exact Or.inr ⟨rfl, hcne⟩
      · rintro (h | ⟨he, _⟩)
        · exact Or.inl h
        · cases he
          exact Or.inr rfl

theorem nodup_compStep (acc : List Str) (s : Score) (h : acc.Nodup) : (compStep acc s).Nodup := by
  unfold compStep
  rcases s.composer with _ | c
  · exact h
  · show (if (c == []) = true then acc else setAdd acc c).Nodup
    split
    · exact h
    · exact nodup_setAdd _ _ h

theorem mem_foldl_compStep (scores : List Score) :
    ∀ (acc : List Str) (x : Str), x ∈ scores.foldl compStep acc ↔
      x ∈ acc ∨ ∃ s ∈ scores, s.composer = some x ∧ x ≠ [] := by
  induction scores with
  | nil => intro acc x; simp
  | cons hd tl ih =>
    intro acc x
    rw [List.foldl_cons, ih, mem_compStep]
    constructor
    · rintro ((h | h) | ⟨s, hs, hc⟩)
      · exact Or.inl h
      · exact Or.inr ⟨hd, List.mem_cons_self hd tl, h⟩
      · exact Or.inr ⟨s, List.mem_cons_of_mem hd hs, hc⟩
    · rintro (h | ⟨s, hs, hc⟩)
      · exact Or.inl (Or.inl h)
      · rcases List.mem_cons.mp hs with rfl | hs
        · exact Or.inl (Or.inr hc)
        · exact Or.inr ⟨s, hs, hc⟩

theorem nodup_foldl_compStep (scores : List Score) :
    ∀ acc : List Str, acc.Nodup → (scores.foldl compStep acc).Nodup := by
  induction scores with
  | nil => intro acc h; exact h
  | cons hd tl ih =>
    intro acc h
    rw [List.foldl_cons]
    exact ih _ (nodup_compStep acc hd h)

theorem sortStrs_sorted (l : List Str) :
    List.Sorted (fun a b : Str => a ≤ b) (sortStrs l) :=
  List.sorted_insertionSort _ l

theorem sortStrs_perm (l : List Str) : (sortStrs l).Perm l :=
  List.perm_insertionSort _ l

/-- The category enumeration exactly as claim C8 words it: the distinct
category values together with the distinct fullCategory values that
differ from the record's category (with no non-emptiness requirement),
sorted. Stated separately from getAllCategories to compare spec and
code. -/
def claimCategoriesC8 (scores : List Score) : List Str :=
  sortStrs (scores.foldl (fun acc s =>
    let acc1 := setAdd acc s.category
    if !(s.fullCategory == s.category) then setAdd acc1 s.fullCategory else acc1) [])

/-- C8 counterexample: a catalog holding the record scanDirectory builds
for a root-level file x.gen has category x.gen and empty fullCategory;
the empty fullCategory differs from the category, so the claim's
description includes the empty string, but getAllCategories omits it
(the code also requires fullCategory to be truthy). -/
theorem C8_counterexample :
    getAllCategories [mkScore decWitness (strOf "x.gen") (strOf "A")] ≠
      claimCategoriesC8 [mkScore decWitness (strOf "x.gen") (strOf "A")] := by
  decide

/-- C8 (amended): categories() returns the distinct category values
together with the distinct non-empty fullCategory values that differ
from their record's category, lexicographically sorted with no
duplicates; composers() returns the distinct non-empty composer values,
lexicographically sorted with no duplicates. -/
theorem C8_amended_enumerations (scores : List Score) :
    List.Sorted (fun a b : Str => a ≤ b) (getAllCategories scores) ∧
    (getAllCategories scores).Nodup ∧
    (∀ x : Str, x ∈ getAllCategories scores ↔
      ∃ s ∈ scores, x = s.category ∨
        (x = s.fullCategory ∧ s.fullCategory ≠ [] ∧ s.fullCategory ≠ s.category)) ∧
    List.Sorted (fun a b : Str => a ≤ b) (getAllComposers scores) ∧
    (getAllComposers scores).Nodup ∧
    (∀ x : Str, x ∈ getAllComposers scores ↔
      ∃ s ∈ scores, s.composer = some x ∧ x ≠ []) := by
  refine ⟨sortStrs_sorted _, ?_, ?_, sortStrs_sorted _, ?_, ?_⟩
  · exact (sortStrs_perm _).symm.nodup (nodup_foldl_catStep scores [] List.nodup_nil)
  · intro x
    rw [show getAllCategories scores = sortStrs (scores.foldl catStep []) from rfl,
      (sortStrs_perm _).mem_iff, mem_foldl_catStep]
    simp
  · exact (sortStrs_perm _).symm.nodup (nodup_foldl_compStep scores [] List.nodup_nil)
  · intro x
    rw [show getAllComposers scores = sortStrs (scores.foldl compStep []) from rfl,
      (sortStrs_perm _).mem_iff, mem_foldl_compStep]
    simp

/-! ### Concurrent first access to the lazy cache -/

/-- Where one async caller of loadAllScores stands: before the cache
check, suspended awaiting its own scanDirectory call, or returned. -/
inductive CallerPc where
  | start
  | scanning
  | done (result : List Score)
deriving DecidableEq

/-- The module state (the scoresCache variable) together with the
position of each of n concurrent callers. -/
structure LoaderState (n : Nat) where
  cache : Option (List Score)
  pcs : Fin n → CallerPc

/-- Before any call: cache null, every caller about to run. -/
def initLoaderState (n : Nat) : LoaderState n :=
  { cache := none, pcs := fun _ => CallerPc.start }

/-- Event-loop interleaving of loadAllScores: a caller's synchronous
prefix either returns the populated cache (cacheHit) or finds null and
awaits its own scan (cacheMiss); the scan resolves together with the
cache assignment and the return (scanFinish). scanDirectory is
deterministic over an unchanged directory, so every scan yields the
same scanResult. -/
inductive LoaderStep (scanResult : List Score) {n : Nat} :
    LoaderState n → LoaderState n → Prop where
  | cacheHit (st : LoaderState n) (i : Fin n) (v : List Score) :
      st.pcs i = CallerPc.start → st.cache = some v →
      LoaderStep scanResult st
        { cache := st.cache, pcs := Function.update st.pcs i (CallerPc.done v) }
  | cacheMiss (st : LoaderState n) (i : Fin n) :
      st.pcs i = CallerPc.start → st.cache = none →
      LoaderStep scanResult st
        { cache := st.cache, pcs := Function.update st.pcs i CallerPc.scanning }
  | scanFinish (st : LoaderState n) (i : Fin n) :
      st.pcs i = CallerPc.scanning →
      LoaderStep scanResult st
        { cache := some scanResult
          pcs := Function.update st.pcs i (CallerPc.done scanResult) }

/-- States reachable from the initial state by any interleaving. -/
def LoaderReachable (scanResult : List Score) {n : Nat} (st : LoaderState n) : Prop :=
  Relation.ReflTransGen (LoaderStep scanResult) (initLoaderState n) st

/-- The invariant: the cache only ever holds the scan result, and every
returned caller returned the scan result. -/
def LoaderInv (scanResult : List Score) {n : Nat} (st : LoaderState n) : Prop :=
  (st.cache = none ∨ st.cache = some scanResult) ∧
  ∀ (i : Fin n) (v : List Score), st.pcs i = CallerPc.done v → v = scanResult

theorem loaderInv_init (scanResult : List Score) (n : Nat) :
    LoaderInv scanResult (initLoaderState n) := by
  constructor
  · exact Or.inl rfl
  · intro i v h
    simp [initLoaderState] at h

theorem loaderInv_step (scanResult : List Score) {n : Nat} (st st' : LoaderState n)
    (hstep : LoaderStep scanResult st st') (hinv : LoaderInv scanResult st) :
    LoaderInv scanResult st' := by
  cases hstep with
  | cacheHit i v hpc hcache =>
    have hv : v = scanResult := by
      rcases hinv.1 with hn | hs
      · rw [hn] at hcache
        cases hcache
      · rw [hs] at hcache
        injection hcache with h
        exact h.symm
    constructor
    · exact hinv.1
    · intro j w hj
      have hj' : Function.update st.pcs i (CallerPc.done v) j = CallerPc.done w := hj
      by_cases hji : j = i
      · subst hji
        rw [Function.update_same] at hj'
        injection hj' with h
        rw [← h, hv]
      · rw [Function.update_noteq hji] at hj'
        exact hinv.2 j w hj'
  | cacheMiss i hpc hcache =>
    constructor
    · exact hinv.1
    · intro j w hj
      have hj' : Function.update st.pcs i CallerPc.scanning j = CallerPc.done w := hj
      by_cases hji : j = i
      · subst hji
        rw [Function.update_same] at hj'
        cases hj'
      · rw [Function.update_noteq hji] at hj'
        exact hinv.2 j w hj'
  | scanFinish i hpc =>
    constructor
    · exact Or.inr rfl
    · intro j w hj
      have hj' : Function.update st.pcs i (CallerPc.done scanResult) j = CallerPc.done w := hj
      by_cases hji : j = i
      · subst hji
        rw [Function.update_same] at hj'
        injection hj' with h
        exact h.symm
      · rw [Function.update_noteq hji] at hj'
        exact hinv.2 j w hj'

/-- C9: under any interleaving of concurrent first accesses, the cache
only ever holds the (deterministic) scan result and every caller that
has returned observed exactly that catalog — duplicated scans during
the race window cause no observable inconsistency. -/
theorem C9_concurrent_consistency (scanResult : List Score) {n : Nat}
    (st : LoaderState n) (h : LoaderReachable scanResult st) :
    (st.cache = none ∨ st.cache = some scanResult) ∧
    (∀ (i : Fin n) (v : List Score), st.pcs i = CallerPc.done v → v = scanResult) := by
  induction h with
  | refl => exact loaderInv_init scanResult n
  | tail hsteps hstep ih => exact loaderInv_step scanResult _ _ hstep ih

def stRace0 : LoaderState 2 := initLoaderState 2

def stRace1 : LoaderState 2 :=
  { cache := stRace0.cache, pcs := Function.update stRace0.pcs 0 CallerPc.scanning }

def stRace2 : LoaderState 2 :=
  { cache := stRace1.cache, pcs := Function.update stRace1.pcs 1 CallerPc.scanning }

def stRace3 : LoaderState 2 :=
  { cache := some [scoreBare]
    pcs := Function.update stRace2.pcs 0 (CallerPc.done [scoreBare]) }

def stRace4 : LoaderState 2 :=
  { cache := some [scoreBare]
    pcs := Function.update stRace3.pcs 1 (CallerPc.done [scoreBare]) }

/-- A concrete racing trace: both callers miss the empty cache, both
scan, both return. -/
theorem stRace4_reachable : LoaderReachable [scoreBare] stRace4 := by
  have h1 : LoaderStep [scoreBare] stRace0 stRace1 :=
    LoaderStep.cacheMiss stRace0 0 (by decide) rfl
  have h2 : LoaderStep [scoreBare] stRace1 stRace2 :=
    LoaderStep.cacheMiss stRace1 1 (by decide) rfl
  have h3 : LoaderStep [scoreBare] stRace2 stRace3 :=
    LoaderStep.scanFinish stRace2 0 (by decide)
  have h4 : LoaderStep [scoreBare] stRace3 stRace4 :=
    LoaderStep.scanFinish stRace3 1 (by decide)
  exact Relation.ReflTransGen.tail
    (Relation.ReflTransGen.tail
      (Relation.ReflTransGen.tail (Relation.ReflTransGen.single h1) h2) h3) h4

theorem C9_concurrent_consistency_witness :
    stRace4.pcs 0 = CallerPc.done [scoreBare] ∧
    stRace4.pcs 1 = CallerPc.done [scoreBare] ∧
    stRace4.cache = some [scoreBare] ∧
    ([scoreBare] : List Score) = [scoreBare] :=
  ⟨by decide, by decide, by decide,
    (C9_concurrent_consistency [scoreBare] stRace4 stRace4_reachable).2 0 [scoreBare]
      (by decide)⟩
